import Mathlib

set_option autoImplicit false

namespace SnakeML

/-! Shallow embedding of the Snake-ML training control plane.

Numbers are modelled by `ℚ` (the JavaScript sources use IEEE doubles and
Float32Array slots; we idealise to exact rationals).  Each definition follows
the corresponding JavaScript function statement by statement. -/

/-- A stored replay transition, as built by `PrioritizedReplayBuffer.push`
(fields `s`, `a`, `r`, `ns`, `d`, `w`). -/
structure Entry where
  s : List ℚ
  a : ℤ
  r : ℚ
  ns : List ℚ
  d : Bool
  w : ℚ
  deriving DecidableEq, Repr, Inhabited

/-- The mutable state of `PrioritizedReplayBuffer`: the ring array `buffer`,
the write cursor `position`, the priority array (a `Float32Array` of length
`capacity`, zero-initialised) and the sampling hyperparameters. -/
structure PRB where
  capacity : ℕ
  buffer : List Entry
  position : ℕ
  alpha : ℚ
  beta : ℚ
  betaIncrement : ℚ
  priorityEps : ℚ
  priorities : List ℚ
  maxPriority : ℚ
  deriving DecidableEq, Repr

/-- The `PrioritizedReplayBuffer` constructor: `capacity = Math.max(1, capacity|0)`,
empty buffer, `position = 0`, zeroed priority array, `maxPriority = priorityEps`. -/
def PRB.init (capacity : ℤ) (alpha beta betaIncrement priorityEps : ℚ) : PRB :=
  let cap := (max 1 capacity).toNat
  { capacity := cap
    buffer := []
    position := 0
    alpha := alpha
    beta := beta
    betaIncrement := betaIncrement
    priorityEps := priorityEps
    priorities := List.replicate cap 0
    maxPriority := priorityEps }

/-- `size()` returns `this.buffer.length`. -/
def PRB.size (b : PRB) : ℕ := b.buffer.length

/-- `push(sample)`: append while below capacity, otherwise overwrite the slot
at `position % capacity`; the touched slot's priority becomes `maxPriority`;
`position` advances modulo `capacity`. -/
def PRB.push (b : PRB) (e : Entry) : PRB :=
  if b.buffer.length < b.capacity then
    { b with
      buffer := b.buffer ++ [e]
      priorities := b.priorities.set b.buffer.length b.maxPriority
      position := (b.position + 1) % b.capacity }
  else
    let idx := b.position % b.capacity
    { b with
      buffer := b.buffer.set idx e
      priorities := b.priorities.set idx b.maxPriority
      position := (b.position + 1) % b.capacity }

/-- Push a whole list of samples in order. -/
def PRB.pushAll (b : PRB) (xs : List Entry) : PRB := xs.foldl PRB.push b

/-- The module-level helper `clampFraction`: clamp to `[0, 1]`
(`Number.isFinite` always holds for a rational). -/
def clampFraction (value : ℚ) : ℚ := min (max value 0) 1

/-- `dropOldest(fraction)`: compute `removeCount = floor(length * clampFraction f)`;
if positive, drop that many entries from the front of the backing array, replace
the priority array by a fresh zeroed one, reset `maxPriority` to `priorityEps`
and set `position = buffer.length % capacity`. -/
def PRB.dropOldest (b : PRB) (fraction : ℚ) : PRB :=
  let removeCount := (⌊(b.buffer.length : ℚ) * clampFraction fraction⌋).toNat
  if removeCount = 0 then b
  else
    let kept := b.buffer.drop removeCount
    { b with
      buffer := kept
      priorities := List.replicate b.capacity 0
      maxPriority := b.priorityEps
      position := kept.length % b.capacity }

/-- The inner selection loop of `sample`: scan the normalized probabilities
accumulating partial sums, returning the first index whose cumulative sum
reaches the draw `r`; `none` when the scan falls through. -/
def selectIdxAux (r : ℚ) : List ℚ → ℚ → ℕ → Option ℕ
  | [], _, _ => none
  | p :: rest, acc, j =>
    let acc2 := acc + p
    if r ≤ acc2 then some j else selectIdxAux r rest acc2 (j + 1)

/-- The drawn index for one iteration of the sampling loop (`index` stays `0`
when no cumulative sum reaches the draw, as in the source). -/
def selectIndex (r : ℚ) (normalized : List ℚ) : ℕ :=
  (selectIdxAux r normalized 0 0).getD 0

/-- `Math.min(...)` over a list of rationals (`0` for the empty spread, which
cannot occur in `sample` since the buffer is nonempty there). -/
def listMin : List ℚ → ℚ
  | [] => 0
  | p :: rest => rest.foldl min p

/-- The record returned by a successful `sample` call. -/
structure SampleResult where
  batch : List Entry
  indices : List ℕ
  weights : List ℚ
  deriving Repr

/-- `sample(batchSize)`: `null` on an empty buffer; otherwise draw
`min(batchSize, length)` indices from the priority-derived distribution and
return the batch, the indices and the normalised importance weights, advancing
`beta` by `betaIncrement` (clamped at 1).  `pow` stands for `Math.pow` and
`rand i` for the i-th `Math.random()` draw. -/
def PRB.sample (b : PRB) (batchSize : ℕ) (pow : ℚ → ℚ → ℚ) (rand : ℕ → ℚ) :
    Option SampleResult × PRB :=
  if b.buffer.length = 0 then (none, b)
  else
    let size := min batchSize b.buffer.length
    let prios := b.priorities.take b.buffer.length
    let probs := prios.map (fun p => pow (if p = 0 then b.priorityEps else p) b.alpha)
    let total := probs.foldl (fun a p => a + p) 0
    let total := if total = 0 then 1 else total
    let normalized := probs.map (fun p => p / total)
    let beta := b.beta
    let b2 := { b with beta := min 1 (b.beta + b.betaIncrement) }
    let maxWeight := pow ((b.buffer.length : ℚ) * listMin normalized) (-beta)
    let draws := (List.range size).map (fun i => selectIndex (rand i) normalized)
    let batch := draws.map (fun idx => b.buffer.getD idx default)
    let weights := draws.map (fun idx =>
      let w := pow ((b.buffer.length : ℚ) * normalized.getD idx 0) (-beta)
      w / (if maxWeight = 0 then 1 else maxWeight))
    (some { batch := batch, indices := draws, weights := weights }, b2)

/-- A raw one-step transition handled by `NStepAccumulator` (fields `s`, `a`,
`r`, `ns`, `d`). -/
structure Step where
  s : List ℚ
  a : ℤ
  r : ℚ
  ns : List ℚ
  d : Bool
  deriving DecidableEq, Repr, Inhabited

/-- The state of `NStepAccumulator`: horizon `n`, discount `gamma`, blend
`lambda` and the pending queue. -/
structure NSA where
  n : ℕ
  gamma : ℚ
  lambda : ℚ
  queue : List Step
  deriving DecidableEq, Repr

/-- `setConfig(n, gamma, lambdaValue)`: clamp `n` to at least 1, clamp
`lambdaValue` to `[0, 1]`, and reset `this.queue = []`, discarding any pending
transitions. -/
def NSA.setConfig (_acc : NSA) (n : ℤ) (gamma lambdaValue : ℚ) : NSA :=
  { n := (max 1 n).toNat
    gamma := gamma
    lambda := max 0 (min 1 lambdaValue)
    queue := [] }

/-- The `NStepAccumulator` constructor, which delegates to `setConfig`. -/
def NSA.init (n : ℤ) (gamma lambdaValue : ℚ) : NSA :=
  NSA.setConfig ⟨0, 0, 0, []⟩ n gamma lambdaValue

/-- The partial-return loop inside `build`: walking the first `limit` queued
steps, it records at each depth the running discounted reward together with
that step's next-state and done flag, stopping after a terminal step.  Called
on `queue.take n` with running reward `0` and discount `1`. -/
def buildPartials (gamma : ℚ) : List Step → ℚ → ℚ → List (ℚ × List ℚ × Bool)
  | [], _, _ => []
  | st :: rest, reward, discount =>
    let reward2 := reward + discount * st.r
    (reward2, st.ns, st.d) ::
      (if st.d then [] else buildPartials gamma rest reward2 (discount * gamma))

/-- The λ-blend loop of `build`: weight `(1-λ)·λ^i` for every depth but the
last and `λ^i` for the last (index `i` starting at 0). -/
def lambdaBlendAux (lambda : ℚ) : List ℚ → ℕ → ℚ
  | [], _ => 0
  | [p], i => lambda ^ i * p
  | p :: q :: rest, i =>
    (1 - lambda) * lambda ^ i * p + lambdaBlendAux lambda (q :: rest) (i + 1)

/-- `build()` evaluated against an explicit queue: the emitted transition keeps
the first queued step's state and action, carries the λ-blended reward (the
plain n-step return when `λ ≥ 0.999`), and takes next-state and done from the
deepest folded partial. -/
def buildStep (n : ℕ) (gamma lambda : ℚ) (queue : List Step) : Step :=
  let first := queue.headD default
  let partials := buildPartials gamma (queue.take n) 0 1
  let lambdaReturn :=
    if partials = [] then 0
    else if lambda ≥ 999 / 1000 then ((partials.map (fun p => p.1)).getLastD 0)
    else lambdaBlendAux lambda (partials.map (fun p => p.1)) 0
  match partials.getLast? with
  | some last => { s := first.s, a := first.a, r := lambdaReturn, ns := last.2.1, d := last.2.2 }
  | none => { s := first.s, a := first.a, r := lambdaReturn, ns := first.ns, d := false }

/-- The `while (queue.length >= n)` loop of `push`: repeatedly build a resolved
return and shift the queue, stopping early (and clearing the queue) when the
return just built is terminal.  The `0 < n` guard reflects the invariant
`n ≥ 1` enforced by `setConfig` (without it the source loop would not
terminate). -/
def drainReady (n : ℕ) (gamma lambda : ℚ) : List Step → List Step × List Step
  | [] => ([], [])
  | st :: rest =>
    if 0 < n ∧ n ≤ (st :: rest).length then
      let b := buildStep n gamma lambda (st :: rest)
      if b.d then ([b], [])
      else
        let (ready, q) := drainReady n gamma lambda rest
        (b :: ready, q)
    else ([], st :: rest)

/-- The loop of `flush()`: build one resolved return per remaining queued step,
shifting after each. -/
def flushQueue (n : ℕ) (gamma lambda : ℚ) : List Step → List Step
  | [] => []
  | st :: rest => buildStep n gamma lambda (st :: rest) :: flushQueue n gamma lambda rest

/-- `push(step)`: append to the queue, drain full-horizon returns, and on a
terminal push additionally flush the remaining partials (the early terminal
exit of the source loop leaves an empty queue, for which the extra flush is a
no-op).  Returns the emitted transitions and the new accumulator state. -/
def NSA.push (acc : NSA) (step : Step) : List Step × NSA :=
  let q0 := acc.queue ++ [step]
  let (ready, q1) := drainReady acc.n acc.gamma acc.lambda q0
  if step.d then
    (ready ++ flushQueue acc.n acc.gamma acc.lambda q1, { acc with queue := [] })
  else
    (ready, { acc with queue := q1 })

/-- `flush()`: drain and resolve every remaining queued step. -/
def NSA.flush (acc : NSA) : List Step × NSA :=
  (flushQueue acc.n acc.gamma acc.lambda acc.queue, { acc with queue := [] })

/-- Push a list of steps in order, collecting every emitted transition. -/
def NSA.pushAll (acc : NSA) (steps : List Step) : List Step × NSA :=
  steps.foldl (fun (p : List Step × NSA) st =>
    let (out, acc2) := p.2.push st
    (p.1 ++ out, acc2)) ([], acc)

/-- The scheduler constant `ADJUST_COOLDOWN_EPISODES = 500`. -/
def ADJUST_COOLDOWN_EPISODES : ℤ := 500

/-- The best-evaluation record kept by `AutoScheduler` (`{episode, fruits}`;
the opaque `meta` field is omitted). -/
structure BestEval where
  episode : ℤ
  fruits : ℚ
  deriving DecidableEq, Repr

/-- `AutoScheduler.updateBestEval(episode, fruits)`: records a new best when
there is none yet, or when `fruits >= best + 5` or `fruits >= best * 1.02`;
returns the new record and whether it fired. -/
def updateBestEval (bestEval : Option BestEval) (episode : ℤ) (fruits : ℚ) :
    Option BestEval × Bool :=
  match bestEval with
  | none => (some ⟨episode, fruits⟩, true)
  | some b =>
    if b.fruits + 5 ≤ fruits ∨ b.fruits * (102 / 100) ≤ fruits then
      (some ⟨episode, fruits⟩, true)
    else (bestEval, false)

/-- The `lastAdjustEpisode` map of `AutoScheduler`, modelled as an association
list from rule keys to the episode of the rule's last firing. -/
abbrev AdjustMap := List (String × ℤ)

/-- `Map.get` on the adjustment map. -/
def mapGet (m : AdjustMap) (key : String) : Option ℤ :=
  (m.find? (fun p => p.1 == key)).map (fun p => p.2)

/-- `Map.set` on the adjustment map. -/
def mapSet : AdjustMap → String → ℤ → AdjustMap
  | [], key, val => [(key, val)]
  | p :: rest, key, val =>
    if p.1 == key then (key, val) :: rest else p :: mapSet rest key val

/-- `AutoScheduler._canAdjust(key, episode)`: read the key's last firing
episode (`-Infinity` when absent, so a first call always fires); refuse when
fewer than `ADJUST_COOLDOWN_EPISODES` episodes have passed, otherwise record
the firing and allow it. -/
def canAdjust (m : AdjustMap) (key : String) (episode : ℤ) : Bool × AdjustMap :=
  match mapGet m key with
  | some last =>
    if episode - last < ADJUST_COOLDOWN_EPISODES then (false, m)
    else (true, mapSet m key episode)
  | none => (true, mapSet m key episode)

/-- Run a sequence of `_canAdjust` gate checks, returning the calls that were
allowed to fire. -/
def runAdjust : AdjustMap → List (String × ℤ) → List (String × ℤ)
  | _, [] => []
  | m, (key, e) :: rest =>
    let (ok, m2) := canAdjust m key e
    if ok then (key, e) :: runAdjust m2 rest else runAdjust m2 rest

/-- The episodes at which the rule `key` fired, over a call sequence starting
from an empty adjustment map. -/
def firesFor (key : String) (calls : List (String × ℤ)) : List ℤ :=
  ((runAdjust [] calls).filter (fun p => p.1 == key)).map (fun p => p.2)

/-- One checkpoint directory as seen by `DiskGuard`: its name, its
modification time and its size in megabytes. -/
structure CkptEntry where
  name : String
  mtime : ℤ
  size : ℚ
  deriving DecidableEq, Repr

/-- The pointer names skipped by `DiskGuard._sortCheckpoints`. -/
def protectedNames : List String := ["latest", "best", "tmp"]

/-- Insert one entry into a list sorted by ascending modification time. -/
def insertByMtime (c : CkptEntry) : List CkptEntry → List CkptEntry
  | [] => [c]
  | d :: rest =>
    if c.mtime ≤ d.mtime then c :: d :: rest else d :: insertByMtime c rest

/-- Sort checkpoint entries by ascending modification time
(the `sort((a, b) => a.mtime - b.mtime)` of the source). -/
def sortByMtime : List CkptEntry → List CkptEntry
  | [] => []
  | c :: rest => insertByMtime c (sortByMtime rest)

/-- `DiskGuard._sortCheckpoints()`: list the checkpoint directories, skip the
protected pointer names, and sort by ascending modification time. -/
def sortCheckpoints (entries : List CkptEntry) : List CkptEntry :=
  sortByMtime (entries.filter (fun e => !(protectedNames.contains e.name)))

/-- `directorySizeMB` over the directories currently present. -/
def totalSizeMB (entries : List CkptEntry) : ℚ := (entries.map (fun e => e.size)).sum

/-- `removeDir` on the directory listing (idempotent delete by name). -/
def removeByName (entries : List CkptEntry) (name : String) : List CkptEntry :=
  entries.filter (fun e => !(e.name == name))

/-- The size-budget pass of `pruneCheckpoints`: walk the sorted checkpoint
list; before each deletion re-check the current total size of the save
directory (protected pointers included) and stop once it fits the budget. -/
def sizePass (capMB : ℚ) : List CkptEntry → List CkptEntry → List CkptEntry
  | [], _ => []
  | c :: rest, present =>
    if totalSizeMB present ≤ capMB then []
    else c :: sizePass capMB rest (removeByName present c.name)

/-- `DiskGuard.pruneCheckpoints()` past its rate limit: delete the oldest
checkpoints beyond the retention count, then delete further oldest entries
while the directory exceeds the byte budget.  Returns the list of deleted
directories. -/
def pruneDeletions (entries : List CkptEntry) (retain : ℤ) (capMB : ℚ) :
    List CkptEntry :=
  let checkpoints := sortCheckpoints entries
  let toRemove := (checkpoints.length : ℤ) - retain
  let victims := if 0 < toRemove then checkpoints.take toRemove.toNat else []
  let present := victims.foldl (fun acc v => removeByName acc v.name) entries
  victims ++ sizePass capMB checkpoints present

/-- The constant `HEAVY_TASK_COOLDOWN_MS = 30 * 1000`. -/
def HEAVY_TASK_COOLDOWN_MS : ℤ := 30 * 1000

/-- A full `pruneCheckpoints()` invocation including the rate limit: a call
within the cooldown window deletes nothing. -/
def pruneCheckpointsCall (now lastPrune : ℤ) (entries : List CkptEntry)
    (retain : ℤ) (capMB : ℚ) : List CkptEntry :=
  if now - lastPrune < HEAVY_TASK_COOLDOWN_MS then []
  else pruneDeletions entries retain capMB

/-- The state of one directory path in the checkpoint filesystem model:
absent, present but empty, or holding a complete readable checkpoint with the
given payload. -/
inductive DirState where
  | absent
  | emptyDir
  | holds (payload : ℕ)
  deriving DecidableEq, Repr

/-- The filesystem, as a finite association of paths to directory states. -/
abbrev FS := List (String × DirState)

/-- Look up a path (absent when unmapped). -/
def fsGet (fs : FS) (p : String) : DirState :=
  ((fs.find? (fun q => q.1 == p)).map (fun q => q.2)).getD .absent

/-- Bind a path to a directory state. -/
def fsSet : FS → String → DirState → FS
  | [], p, st => [(p, st)]
  | q :: rest, p, st =>
    if q.1 == p then (p, st) :: rest else q :: fsSet rest p st

/-- The primitive filesystem operations performed by `CheckpointManager.save`
(`ensureDir`, `removeDir`, `writeJsonWithFsync` of `checkpoint.json`,
`fs.cp` recursive, `fs.rename`). -/
inductive FsOp where
  | ensureDir (p : String)
  | removeDir (p : String)
  | writeJson (p : String) (payload : ℕ)
  | copyDir (src dst : String)
  | renameDir (src dst : String)
  deriving DecidableEq, Repr

/-- Semantics of one primitive operation.  `removeDir` is idempotent;
`renameDir` moves the source onto the destination (the source sequences a
`removeDir` of any non-empty destination first). -/
def applyOp (fs : FS) : FsOp → FS
  | .ensureDir p =>
    match fsGet fs p with
    | .absent => fsSet fs p .emptyDir
    | _ => fs
  | .removeDir p => fsSet fs p .absent
  | .writeJson p payload => fsSet fs p (.holds payload)
  | .copyDir src dst => fsSet fs dst (fsGet fs src)
  | .renameDir src dst => fsSet (fsSet fs dst (fsGet fs src)) src .absent

/-- Run a list of primitive operations in order. -/
def applyOps (fs : FS) (ops : List FsOp) : FS := ops.foldl applyOp fs

/-- `CheckpointManager._updatePointer(name, targetDir)` as its primitive
operation sequence: clear and recreate the temp pointer, copy the target in,
then delete the old pointer directory and rename the temp copy over it. -/
def updatePointerOps (saveDir name targetDir : String) : List FsOp :=
  let pointerDir := saveDir ++ "/" ++ name
  let tempPointer := saveDir ++ "/" ++ name ++ "_tmp"
  [ .removeDir tempPointer
  , .ensureDir tempPointer
  , .copyDir targetDir tempPointer
  , .removeDir pointerDir
  , .renameDir tempPointer pointerDir ]

/-- `CheckpointManager.save` as its primitive operation sequence: write the
payload inside a temp directory, rename it to the timestamped target
(`withTempDir` then removes the now-absent temp dir), repoint `latest`, and
repoint `best` when `isBest`. -/
def saveOps (saveDir tempName timestamp : String) (payload : ℕ) (isBest : Bool) :
    List FsOp :=
  let tempDir := saveDir ++ "/" ++ tempName
  let targetDir := saveDir ++ "/" ++ timestamp
  [ .ensureDir tempDir
  , .writeJson tempDir payload
  , .renameDir tempDir targetDir
  , .removeDir tempDir ]
  ++ updatePointerOps saveDir "latest" targetDir
  ++ (if isBest then updatePointerOps saveDir "best" targetDir else [])

/-! Concrete inputs used by the counterexamples below. -/

/-- A non-terminal step with reward 1 and next-state `[1]`. -/
def stepA : Step := { s := [0], a := 0, r := 1, ns := [1], d := false }

/-- A non-terminal step with reward 5 and next-state `[2]`. -/
def stepB : Step := { s := [1], a := 1, r := 5, ns := [2], d := false }

/-- A replay entry with reward tag `r` (used to tell slots apart). -/
def entryTagged (r : ℚ) : Entry := { s := [0], a := 0, r := r, ns := [0], d := false, w := 1 }

/-- A capacity-2 buffer (priorityEps 1/1000) after pushing entries tagged
1, 2, 3: the ring has wrapped, its backing array is `[3, 2]`. -/
def wrappedBuf : PRB :=
  (PRB.init 2 (6/10) (4/10) 0 (1/1000)).pushAll
    [entryTagged 1, entryTagged 2, entryTagged 3]

/-- An initial filesystem whose `latest` pointer holds a complete checkpoint
with payload 0. -/
def fsLatest0 : FS := [("save/latest", DirState.holds 0)]

/-- The primitive operations of a `save` call (not best) writing payload 1
into timestamp directory `ts1`. -/
def saveOpsC1 : List FsOp := saveOps "save" ".tmp1" "ts1" 1 false

/-- C9: with `n = 3`, `γ = 0.9`, `λ = 1`, pushing three non-terminal unit-reward
transitions emits exactly one resolved return: shaped reward
`1 + 0.9 + 0.81 = 2.71`, the first step's state and action, and the third
step's next-state. -/
theorem C9_nstep_return_concrete :
    (NSA.pushAll (NSA.init 3 (9/10) 1)
      [ { s := [1], a := 1, r := 1, ns := [2], d := false }
      , { s := [2], a := 2, r := 1, ns := [3], d := false }
      , { s := [3], a := 3, r := 1, ns := [4], d := false } ]).1
    = [ { s := [1], a := 1, r := 271/100, ns := [4], d := false } ] := by
  simp [NSA.pushAll, NSA.push, NSA.init, NSA.setConfig, drainReady, buildStep,
        buildPartials, flushQueue, lambdaBlendAux]
  norm_num

/-- C4 counterexample: with `n = 2` and `λ = 0`, the emitted transition's
shaped reward is the first step's raw reward, but its next-state is the
second step's next-state `[2]`, not the first step's next-state `[1]` as the
claim requires. -/
theorem C4_counterexample :
    (NSA.pushAll (NSA.init 2 (9/10) 0) [stepA, stepB]).1
      = [ { s := [0], a := 0, r := 1, ns := [2], d := false } ] ∧
    ¬ ((NSA.pushAll (NSA.init 2 (9/10) 0) [stepA, stepB]).1.map Step.ns
        = [stepA.ns]) := by
  simp [NSA.pushAll, NSA.push, NSA.init, NSA.setConfig, drainReady, buildStep,
        buildPartials, flushQueue, lambdaBlendAux, stepA, stepB]

/-- C5 counterexample: one non-terminal step is pending in the queue, and
`setConfig` (even with unchanged parameters) resets the queue to empty, so the
pending transition is discarded rather than left in place. -/
theorem C5_counterexample :
    ((NSA.init 2 (9/10) 1).push stepA).2.queue = [stepA] ∧
    (((NSA.init 2 (9/10) 1).push stepA).2.setConfig 2 (9/10) 1).queue = [] ∧
    ¬ ((((NSA.init 2 (9/10) 1).push stepA).2.setConfig 2 (9/10) 1).queue
        = [stepA]) := by
  simp [NSA.push, NSA.init, NSA.setConfig, drainReady, buildStep,
        buildPartials, flushQueue, lambdaBlendAux, stepA]

/-- C2 counterexample: on the wrapped capacity-2 buffer holding (newest-first
in array order) entries tagged `[3, 2]`, `dropOldest(1/2)` keeps the entry
tagged 2 — dropping the newest entry 3 instead of the insertion-oldest 2 —
and resets the stored priorities to 0, not to `priorityEps = 1/1000`. -/
theorem C2_counterexample :
    (wrappedBuf.dropOldest (1/2)).buffer.map Entry.r = [2] ∧
    ¬ ((wrappedBuf.dropOldest (1/2)).buffer.map Entry.r = [3]) ∧
    (wrappedBuf.dropOldest (1/2)).priorities = [0, 0] ∧
    (wrappedBuf.dropOldest (1/2)).priorityEps = 1/1000 ∧
    ¬ ((0 : ℚ) = 1/1000) := by
  simp [wrappedBuf, entryTagged, PRB.pushAll, PRB.push, PRB.init, PRB.dropOldest,
        clampFraction]
  norm_num

/-- C3 counterexample: with a best record of 100 fruits, a new score of 104
misses the absolute margin (`104 < 100 + 5`) yet the scheduler still records a
new best, because the relative margin (`104 ≥ 102`) alone suffices — the two
margins are combined with OR, not AND. -/
theorem C3_counterexample :
    updateBestEval (some ⟨0, 100⟩) 1 104 = (some ⟨1, 104⟩, true) ∧
    ¬ ((100 : ℚ) + 5 ≤ 104) ∧
    ¬ (updateBestEval (some ⟨0, 100⟩) 1 104 = (some ⟨0, 100⟩, false)) := by
  simp [updateBestEval]
  norm_num

/-- C1 counterexample: in the `save` operation sequence, the step right before
the final rename is `removeDir` of the old `latest` pointer, and at the
intermediate point after it the `latest` pointer is absent — the previously
promoted checkpoint pointer neither exists nor is readable there. -/
theorem C1_counterexample :
    saveOpsC1.get? 7 = some (FsOp.removeDir "save/latest") ∧
    saveOpsC1.get? 8 = some (FsOp.renameDir "save/latest_tmp" "save/latest") ∧
    fsGet (applyOps fsLatest0 (saveOpsC1.take 8)) "save/latest" = DirState.absent ∧
    ¬ (fsGet (applyOps fsLatest0 (saveOpsC1.take 8)) "save/latest" = DirState.holds 0) := by
  decide

/-- C5 amended: `setConfig` resets the pending queue to empty and erases all
prior accumulator state — the result does not depend on the accumulator it is
called on, so pending transitions are discarded (never resolved later), and
the new configuration governs exactly the pushes that follow. -/
theorem C5_setConfig_discards_queue (acc acc2 : NSA) (n : ℤ) (gamma lambdaValue : ℚ) :
    (acc.setConfig n gamma lambdaValue).queue = [] ∧
    acc.setConfig n gamma lambdaValue = acc2.setConfig n gamma lambdaValue :=
  ⟨rfl, rfl⟩

/-- C3 amended: with an existing best record, a new best is recorded exactly
when the new score beats the previous best by the absolute margin OR by the
relative margin; only when both margins fail is the record left unchanged. -/
theorem C3_best_margin_or (b : BestEval) (episode : ℤ) (fruits : ℚ) :
    ((updateBestEval (some b) episode fruits).2 = true ↔
      b.fruits + 5 ≤ fruits ∨ b.fruits * (102/100) ≤ fruits) ∧
    ((updateBestEval (some b) episode fruits).2 = false ↔
      updateBestEval (some b) episode fruits = (some b, false)) := by
  by_cases h : b.fruits + 5 ≤ fruits ∨ b.fruits * (102/100) ≤ fruits <;>
    simp [updateBestEval, h]

/-- With a zero blend every λ-weight at positive index vanishes. -/
lemma lambdaBlendAux_zero_of_pos (ps : List ℚ) (i : ℕ) (hi : 0 < i) :
    lambdaBlendAux 0 ps i = 0 := by
  induction ps generalizing i with
  | nil => simp [lambdaBlendAux]
  | cons p rest ih =>
    cases rest with
    | nil => simp [lambdaBlendAux, zero_pow hi.ne']
    | cons q rest2 =>
      simp [lambdaBlendAux, zero_pow hi.ne', ih (i + 1) i.succ_pos]

/-- With a zero blend the mixed return collapses to the first partial return. -/
lemma lambdaBlendAux_zero_head (p : ℚ) (l : List ℚ) :
    lambdaBlendAux 0 (p :: l) 0 = p := by
  cases l with
  | nil => simp [lambdaBlendAux]
  | cons q rest => simp [lambdaBlendAux, lambdaBlendAux_zero_of_pos (q :: rest) 1 one_pos]

/-- C4 amended: with `λ = 0` every resolved return keeps the first queued
step's state and action and carries exactly that step's raw reward (the TD(0)
reward) for every horizon `n ≥ 1`; the counterexample shows that next-state
and done instead come from the deepest folded step, so they are not part of
the 1-step claim. -/
theorem C4_lambda0_td0_reward (n : ℕ) (gamma : ℚ) (queue : List Step)
    (hn : 0 < n) (hq : queue ≠ []) :
    (buildStep n gamma 0 queue).r = (queue.headD default).r ∧
    (buildStep n gamma 0 queue).s = (queue.headD default).s ∧
    (buildStep n gamma 0 queue).a = (queue.headD default).a := by
  obtain ⟨st, rest, rfl⟩ := List.exists_cons_of_ne_nil hq
  obtain ⟨m, rfl⟩ : ∃ m, n = m + 1 := ⟨n - 1, (Nat.succ_pred_eq_of_pos hn).symm⟩
  have h999 : ¬ ((999 : ℚ) / 1000 ≤ 0) := by norm_num
  by_cases hd : st.d <;>
    · simp only [buildStep, List.take_succ_cons, buildPartials, hd,
        List.headD_cons, Bool.false_eq_true, ite_false, ite_true]
      refine ⟨?_, ?_, ?_⟩ <;>
        · split <;>
            simp [h999, lambdaBlendAux_zero_head, lambdaBlendAux]

/-- Two indices within one ring lap occupy distinct slots. -/
lemma mod_ne_of_sub_lt (C j k : ℕ) (hjk : j < k) (hsub : k - j < C) :
    j % C ≠ k % C := by
  intro h
  have hdvd : C ∣ k - j := (Nat.modEq_iff_dvd' hjk.le).mp h
  have hpos : 0 < k - j := Nat.sub_pos_of_lt hjk
  exact absurd (Nat.le_of_dvd hpos hdvd) (not_le.mpr hsub)

/-- Projection facts about `push` used by the ring invariant. -/
lemma push_capacity (b : PRB) (e : Entry) : (b.push e).capacity = b.capacity := by
  unfold PRB.push; split <;> rfl

/-- The cursor always advances by one modulo the capacity. -/
lemma push_position (b : PRB) (e : Entry) :
    (b.push e).position = (b.position + 1) % b.capacity := by
  unfold PRB.push; split <;> rfl

/-- A push never changes the length of the priority array. -/
lemma push_priorities_length (b : PRB) (e : Entry) :
    (b.push e).priorities.length = b.priorities.length := by
  unfold PRB.push; split <;> simp

/-- Below capacity a push appends the new entry. -/
lemma push_buffer_of_lt (b : PRB) (e : Entry) (h : b.buffer.length < b.capacity) :
    (b.push e).buffer = b.buffer ++ [e] := by
  unfold PRB.push; rw [if_pos h]

/-- At capacity a push overwrites the slot under the cursor. -/
lemma push_buffer_of_ge (b : PRB) (e : Entry) (h : ¬ b.buffer.length < b.capacity) :
    (b.push e).buffer = b.buffer.set (b.position % b.capacity) e := by
  unfold PRB.push; rw [if_neg h]

/-- Ring invariant of `push`: starting from a fresh buffer of positive
capacity `C`, after the pushes of `xs` the stored length is `min k C`, the
write cursor is `k % C`, the priority array keeps length `C`, and each of the
`min k C` most recent pushes `xs[j]` sits in slot `j % C`. -/
lemma pushAll_ring_invariant (b0 : PRB) (hbuf : b0.buffer = [])
    (hpos : b0.position = 0) (hcap : 0 < b0.capacity)
    (hprio : b0.priorities.length = b0.capacity) (xs : List Entry) :
    (b0.pushAll xs).capacity = b0.capacity ∧
    (b0.pushAll xs).priorities.length = b0.capacity ∧
    (b0.pushAll xs).buffer.length = min xs.length b0.capacity ∧
    (b0.pushAll xs).position = xs.length % b0.capacity ∧
    ∀ j, xs.length - b0.capacity ≤ j → j < xs.length →
      (b0.pushAll xs).buffer.get? (j % b0.capacity) = xs.get? j := by
  induction xs using List.reverseRecOn with
  | nil =>
    refine ⟨rfl, hprio, ?_, ?_, ?_⟩
    · simp [PRB.pushAll, hbuf]
    · simp [PRB.pushAll, hpos]
    · intro j _ hj
      exact absurd hj (by simp)
  | append_singleton xs e ih =>
    obtain ⟨ihcap, ihprio, ihlen, ihpos, ihslot⟩ := ih
    have hpush : b0.pushAll (xs ++ [e]) = (b0.pushAll xs).push e := by
      simp [PRB.pushAll, List.foldl_append]
    set b := b0.pushAll xs with hb
    set k := xs.length with hk
    set C := b0.capacity with hC
    rw [hpush]
    by_cases hfull : b.buffer.length < b.capacity
    · -- still filling: `k < C`, the push appends at the end
      have hkC : k < C := by
        have h2 := hfull
        rw [ihlen, ihcap] at h2
        omega
      have hlenb : b.buffer.length = k := by rw [ihlen]; omega
      have hposb : b.position = k := by rw [ihpos, Nat.mod_eq_of_lt hkC]
      refine ⟨by rw [push_capacity]; exact ihcap,
        by rw [push_priorities_length]; exact ihprio, ?_, ?_, ?_⟩
      · rw [push_buffer_of_lt _ _ hfull, List.length_append, List.length_append,
          List.length_singleton, hlenb, ← hk]
        omega
      · rw [push_position, hposb, ihcap, List.length_append, List.length_singleton, ← hk]
      · intro j hj1 hj2
        rw [List.length_append, List.length_singleton, ← hk] at hj1 hj2
        rw [push_buffer_of_lt _ _ hfull]
        rcases Nat.lt_or_ge j k with hjlt | hjge
        · have hjC : j < C := lt_trans hjlt hkC
          rw [Nat.mod_eq_of_lt hjC, List.get?_append (hlenb ▸ hjlt : j < b.buffer.length),
            List.get?_append (hjlt : j < xs.length)]
          have hsl := ihslot j (by omega) hjlt
          rwa [Nat.mod_eq_of_lt hjC] at hsl
        · have hjk : j = k := by omega
          subst hjk
          rw [Nat.mod_eq_of_lt hkC, ← hlenb, List.get?_concat_length, hlenb, hk,
            List.get?_concat_length]
    · -- the ring has wrapped: `k ≥ C`, the push overwrites slot `k % C`
      have hkC : C ≤ k := by
        have h2 := hfull
        rw [ihlen, ihcap] at h2
        omega
      have hlenb : b.buffer.length = C := by rw [ihlen]; omega
      have hCpos : 0 < C := hcap
      refine ⟨by rw [push_capacity]; exact ihcap,
        by rw [push_priorities_length]; exact ihprio, ?_, ?_, ?_⟩
      · rw [push_buffer_of_ge _ _ hfull, List.length_set, hlenb, List.length_append,
          List.length_singleton, ← hk]
        omega
      · rw [push_position, ihpos, ihcap, List.length_append, List.length_singleton, ← hk]
        exact Nat.mod_add_mod k C 1
      · intro j hj1 hj2
        rw [List.length_append, List.length_singleton, ← hk] at hj1 hj2
        rw [push_buffer_of_ge _ _ hfull, ihpos, ihcap, Nat.mod_mod_of_dvd k dvd_rfl]
        rcases Nat.lt_or_ge j k with hjlt | hjge
        · have hne : k % C ≠ j % C :=
            (mod_ne_of_sub_lt C j k hjlt (by omega)).symm
          rw [List.get?_set_ne _ _ hne, List.get?_append (hjlt : j < xs.length)]
          exact ihslot j (by omega) hjlt
        · have hjk : j = k := by omega
          subst hjk
          rw [List.get?_set_eq_of_lt _ (by rw [hlenb]; exact Nat.mod_lt _ hCpos), hk,
            List.get?_concat_length]

/-- A push never changes `priorityEps`. -/
lemma push_priorityEps (b : PRB) (e : Entry) : (b.push e).priorityEps = b.priorityEps := by
  unfold PRB.push; split <;> rfl

/-- A push sequence never changes `priorityEps`. -/
lemma pushAll_priorityEps (b : PRB) (xs : List Entry) :
    (b.pushAll xs).priorityEps = b.priorityEps := by
  induction xs generalizing b with
  | nil => rfl
  | cons e rest ih =>
    rw [PRB.pushAll, List.foldl_cons, ← PRB.pushAll, ih, push_priorityEps]

/-- C6: for every capacity and every push sequence, the buffer size equals
`min k C`, and each of the `min k C` most recently pushed transitions `xs[j]`
is stored at ring slot `j % C` — the slot characterization depends only on
insertion order (`j` and `C`), never on priorities, so eviction beyond
capacity is purely by insertion order. -/
theorem C6_ring_semantics (capacity : ℤ) (alpha beta bi eps : ℚ) (xs : List Entry) :
    ((PRB.init capacity alpha beta bi eps).pushAll xs).size
      = min xs.length (PRB.init capacity alpha beta bi eps).capacity ∧
    ∀ j, xs.length - min xs.length (PRB.init capacity alpha beta bi eps).capacity ≤ j →
      j < xs.length →
      ((PRB.init capacity alpha beta bi eps).pushAll xs).buffer.get?
        (j % (PRB.init capacity alpha beta bi eps).capacity) = xs.get? j := by
  have hcap : 0 < (PRB.init capacity alpha beta bi eps).capacity := by
    simp only [PRB.init]
    omega
  obtain ⟨h1, h2, h3, h4, h5⟩ :=
    pushAll_ring_invariant (PRB.init capacity alpha beta bi eps) rfl rfl hcap
      (by simp [PRB.init]) xs
  refine ⟨h3, ?_⟩
  intro j hj1 hj2
  refine h5 j ?_ hj2
  omega

/-- Witness for C6 at capacity 2 with three pushes, reading slot `2 % 2 = 0`. -/
theorem C6_ring_semantics_witness :
    ((PRB.init 2 (6/10) (4/10) 0 (1/1000)).pushAll
        [entryTagged 1, entryTagged 2, entryTagged 3]).size
      = min ([entryTagged 1, entryTagged 2, entryTagged 3].length)
          (PRB.init 2 (6/10) (4/10) 0 (1/1000)).capacity ∧
    ((PRB.init 2 (6/10) (4/10) 0 (1/1000)).pushAll
        [entryTagged 1, entryTagged 2, entryTagged 3]).buffer.get?
        (2 % (PRB.init 2 (6/10) (4/10) 0 (1/1000)).capacity)
      = [entryTagged 1, entryTagged 2, entryTagged 3].get? 2 :=
  ⟨(C6_ring_semantics 2 (6/10) (4/10) 0 (1/1000)
      [entryTagged 1, entryTagged 2, entryTagged 3]).1,
   (C6_ring_semantics 2 (6/10) (4/10) 0 (1/1000)
      [entryTagged 1, entryTagged 2, entryTagged 3]).2 2
      (by simp [PRB.init]) (by simp)⟩

/-- Before the ring wraps the backing array lists the pushes in insertion
order. -/
lemma pushAll_buffer_of_le (capacity : ℤ) (alpha beta bi eps : ℚ) (xs : List Entry)
    (hlen : xs.length ≤ (PRB.init capacity alpha beta bi eps).capacity) :
    ((PRB.init capacity alpha beta bi eps).pushAll xs).buffer = xs := by
  have hcap : 0 < (PRB.init capacity alpha beta bi eps).capacity := by
    simp only [PRB.init]
    omega
  obtain ⟨h1, h2, h3, h4, h5⟩ :=
    pushAll_ring_invariant (PRB.init capacity alpha beta bi eps) rfl rfl hcap
      (by simp [PRB.init]) xs
  apply List.ext_get?_iff.mpr
  intro n
  rcases Nat.lt_or_ge n xs.length with hn | hn
  · have hs := h5 n (by omega) hn
    rwa [Nat.mod_eq_of_lt (lt_of_lt_of_le hn hlen)] at hs
  · rw [List.get?_eq_none.mpr (by omega), List.get?_eq_none.mpr hn]

/-- C2 amended: on a buffer that has not wrapped, `dropOldest(f)` removes
exactly the `⌊f·s⌋` earliest-pushed entries (they coincide with the front of
the backing array there; the counterexample shows this fails once the ring has
wrapped); when the removal count is positive the stored priority array is
reset to all zeros — the floor `priorityEps` is applied only at sampling
time — and `maxPriority` is reset to `priorityEps`. -/
theorem C2_dropOldest_unwrapped (capacity : ℤ) (alpha beta bi eps : ℚ)
    (xs : List Entry) (fraction : ℚ)
    (hlen : xs.length ≤ (PRB.init capacity alpha beta bi eps).capacity) :
    (((PRB.init capacity alpha beta bi eps).pushAll xs).dropOldest fraction).buffer
      = xs.drop ((⌊(xs.length : ℚ) * clampFraction fraction⌋).toNat) ∧
    (0 < (⌊(xs.length : ℚ) * clampFraction fraction⌋).toNat →
      (((PRB.init capacity alpha beta bi eps).pushAll xs).dropOldest fraction).priorities
          = List.replicate (PRB.init capacity alpha beta bi eps).capacity 0 ∧
      (((PRB.init capacity alpha beta bi eps).pushAll xs).dropOldest fraction).maxPriority
          = eps) := by
  have hbuf := pushAll_buffer_of_le capacity alpha beta bi eps xs hlen
  have hcap : 0 < (PRB.init capacity alpha beta bi eps).capacity := by
    simp only [PRB.init]
    omega
  obtain ⟨h1, h2, h3, h4, h5⟩ :=
    pushAll_ring_invariant (PRB.init capacity alpha beta bi eps) rfl rfl hcap
      (by simp [PRB.init]) xs
  have heps : ((PRB.init capacity alpha beta bi eps).pushAll xs).priorityEps = eps := by
    rw [pushAll_priorityEps]; rfl
  constructor
  · by_cases hrc : (⌊(xs.length : ℚ) * clampFraction fraction⌋).toNat = 0 <;>
      simp [PRB.dropOldest, hbuf, hrc]
  · intro hrc
    have hrc0 : ¬ (⌊(xs.length : ℚ) * clampFraction fraction⌋).toNat = 0 := by omega
    refine ⟨?_, ?_⟩ <;> simp [PRB.dropOldest, hbuf, hrc0, h1, heps]

/-- Witness for the amended C2 theorem: capacity 2, two pushes, fraction 1/2. -/
theorem C2_dropOldest_unwrapped_witness :
    (((PRB.init 2 (6/10) (4/10) 0 (1/1000)).pushAll
        [entryTagged 1, entryTagged 2]).dropOldest (1/2)).buffer
      = [entryTagged 1, entryTagged 2].drop
          ((⌊(([entryTagged 1, entryTagged 2].length : ℕ) : ℚ) * clampFraction (1/2)⌋).toNat) ∧
    (0 < (⌊(([entryTagged 1, entryTagged 2].length : ℕ) : ℚ) * clampFraction (1/2)⌋).toNat →
      (((PRB.init 2 (6/10) (4/10) 0 (1/1000)).pushAll
          [entryTagged 1, entryTagged 2]).dropOldest (1/2)).priorities
        = List.replicate (PRB.init 2 (6/10) (4/10) 0 (1/1000)).capacity 0 ∧
      (((PRB.init 2 (6/10) (4/10) 0 (1/1000)).pushAll
          [entryTagged 1, entryTagged 2]).dropOldest (1/2)).maxPriority = 1/1000) :=
  C2_dropOldest_unwrapped 2 (6/10) (4/10) 0 (1/1000)
    [entryTagged 1, entryTagged 2] (1/2) (by simp [PRB.init])

/-- Witness for the amended C4 theorem at `n = 2`, `γ = 9/10`,
queue `[stepA, stepB]`. -/
theorem C4_lambda0_td0_reward_witness :
    (buildStep 2 (9/10) 0 [stepA, stepB]).r = ([stepA, stepB].headD default).r ∧
    (buildStep 2 (9/10) 0 [stepA, stepB]).s = ([stepA, stepB].headD default).s ∧
    (buildStep 2 (9/10) 0 [stepA, stepB]).a = ([stepA, stepB].headD default).a :=
  C4_lambda0_td0_reward 2 (9/10) [stepA, stepB] (by norm_num) (by simp)

/-- Insertion into the mtime-sorted list introduces no new elements. -/
lemma mem_insertByMtime (c x : CkptEntry) (l : List CkptEntry)
    (hx : x ∈ insertByMtime c l) : x = c ∨ x ∈ l := by
  induction l with
  | nil => simpa [insertByMtime] using hx
  | cons d rest ih =>
    simp only [insertByMtime] at hx
    split at hx
    · simpa using hx
    · rcases List.mem_cons.mp hx with h | h
      · exact Or.inr (List.mem_cons.mpr (Or.inl h))
      · rcases ih h with h2 | h2
        · exact Or.inl h2
        · exact Or.inr (List.mem_cons.mpr (Or.inr h2))

/-- Sorting by mtime introduces no new elements. -/
lemma mem_sortByMtime (l : List CkptEntry) (x : CkptEntry)
    (hx : x ∈ sortByMtime l) : x ∈ l := by
  induction l with
  | nil => simpa [sortByMtime] using hx
  | cons c rest ih =>
    rcases mem_insertByMtime c x (sortByMtime rest) hx with h | h
    · exact h ▸ List.mem_cons_self c rest
    · exact List.mem_cons.mpr (Or.inr (ih h))

/-- Everything deleted by the size-budget pass comes from the scanned
checkpoint list. -/
lemma mem_sizePass (capMB : ℚ) (cs : List CkptEntry) (x : CkptEntry) :
    ∀ present, x ∈ sizePass capMB cs present → x ∈ cs := by
  induction cs with
  | nil => intro present h; simpa [sizePass] using h
  | cons c rest ih =>
    intro present h
    simp only [sizePass] at h
    split at h
    · exact absurd h (List.not_mem_nil x)
    · rcases List.mem_cons.mp h with h2 | h2
      · exact List.mem_cons.mpr (Or.inl h2)
      · exact List.mem_cons.mpr (Or.inr (ih _ h2))

/-- Entries surviving `_sortCheckpoints` never carry a protected pointer
name. -/
lemma sortCheckpoints_not_protected (entries : List CkptEntry) (x : CkptEntry)
    (hx : x ∈ sortCheckpoints entries) :
    ¬ (x.name = "latest" ∨ x.name = "best" ∨ x.name = "tmp") := by
  have hmem := mem_sortByMtime _ _ hx
  have hfilter := (List.mem_filter.mp hmem).2
  simpa [protectedNames] using hfilter

/-- Every deletion of `pruneCheckpoints` targets a member of the
`_sortCheckpoints` output. -/
lemma mem_pruneDeletions (entries : List CkptEntry) (retain : ℤ) (capMB : ℚ)
    (x : CkptEntry) (hx : x ∈ pruneDeletions entries retain capMB) :
    x ∈ sortCheckpoints entries := by
  simp only [pruneDeletions, List.mem_append] at hx
  rcases hx with h | h
  · split at h
    · exact List.take_subset _ _ h
    · exact absurd h (List.not_mem_nil x)
  · exact mem_sizePass capMB _ x _ h

/-- C7: no invocation of `pruneCheckpoints` — rate-limited or not, for any
directory contents, retention count and size budget — ever deletes the
`latest` or `best` pointer directories: the list of deletions contains no
entry with either name. -/
theorem C7_prune_protects_pointers (now lastPrune : ℤ) (entries : List CkptEntry)
    (retain : ℤ) (capMB : ℚ) :
    (pruneCheckpointsCall now lastPrune entries retain capMB).filter
      (fun e => e.name == "latest" || e.name == "best") = [] := by
  rw [List.filter_eq_nil]
  intro x hx
  unfold pruneCheckpointsCall at hx
  split at hx
  · exact absurd hx (List.not_mem_nil x)
  · have hnp := sortCheckpoints_not_protected entries x
      (mem_pruneDeletions entries retain capMB x hx)
    simp only [Bool.or_eq_true, beq_iff_eq]
    tauto

/-- Setting a key makes it readable. -/
lemma mapGet_mapSet_self (m : AdjustMap) (k : String) (v : ℤ) :
    mapGet (mapSet m k v) k = some v := by
  induction m with
  | nil => simp [mapSet, mapGet]
  | cons p rest ih =>
    by_cases h : p.1 = k
    · simp [mapSet, mapGet, h]
    · simp only [mapSet, mapGet] at ih ⊢
      rw [if_neg (by simpa using h)]
      simpa [List.find?, (by simpa using h : (p.1 == k) = false)] using ih

/-- Setting one key leaves every other key unchanged. -/
lemma mapGet_mapSet_ne (m : AdjustMap) (k k2 : String) (v : ℤ) (h : k ≠ k2) :
    mapGet (mapSet m k v) k2 = mapGet m k2 := by
  have hk2 : (k == k2) = false := by simpa using h
  induction m with
  | nil => simp [mapSet, mapGet, hk2]
  | cons p rest ih =>
    by_cases hp : p.1 = k
    · have hp2 : (p.1 == k2) = false := by simpa [hp] using h
      simp [mapSet, mapGet, hp, hk2, hp2, List.find?]
    · have hpb : (p.1 == k) = false := by simpa using hp
      by_cases hq : p.1 = k2
      · simp [mapSet, mapGet, hpb, List.find?, hq, Ne.symm h]
      · have hqb : (p.1 == k2) = false := by simpa using hq
        simpa [mapSet, mapGet, hpb, List.find?, hqb] using ih

/-- The gate fires on a key with no record. -/
lemma canAdjust_none (m : AdjustMap) (k : String) (e : ℤ) (h : mapGet m k = none) :
    canAdjust m k e = (true, mapSet m k e) := by
  unfold canAdjust; rw [h]

/-- The gate refuses within the cooldown window. -/
lemma canAdjust_some_lt (m : AdjustMap) (k : String) (e last : ℤ)
    (h : mapGet m k = some last) (hlt : e - last < ADJUST_COOLDOWN_EPISODES) :
    canAdjust m k e = (false, m) := by
  unfold canAdjust; rw [h]; simp [hlt]

/-- The gate fires once the cooldown has elapsed and records the episode. -/
lemma canAdjust_some_ge (m : AdjustMap) (k : String) (e last : ℤ)
    (h : mapGet m k = some last) (hge : ¬ e - last < ADJUST_COOLDOWN_EPISODES) :
    canAdjust m k e = (true, mapSet m k e) := by
  unfold canAdjust; rw [h]; simp [hge]

/-- A gate check for one rule key never disturbs the record of another. -/
lemma canAdjust_mapGet_other (m : AdjustMap) (k0 key : String) (e : ℤ)
    (h : k0 ≠ key) :
    mapGet (canAdjust m k0 e).2 key = mapGet m key := by
  rcases hg : mapGet m k0 with _ | last
  · rw [canAdjust_none m k0 e hg]
    exact mapGet_mapSet_ne m k0 key e h
  · by_cases hlt : e - last < ADJUST_COOLDOWN_EPISODES
    · rw [canAdjust_some_lt m k0 e last hg hlt]
    · rw [canAdjust_some_ge m k0 e last hg hlt]
      exact mapGet_mapSet_ne m k0 key e h

/-- The gate decision for a key, and the key record afterwards, depend only on
the key record beforehand. -/
lemma canAdjust_congr (m m2 : AdjustMap) (key : String) (e : ℤ)
    (h : mapGet m key = mapGet m2 key) :
    (canAdjust m key e).1 = (canAdjust m2 key e).1 ∧
    mapGet (canAdjust m key e).2 key = mapGet (canAdjust m2 key e).2 key := by
  rcases hg : mapGet m key with _ | last
  · rw [canAdjust_none m key e hg, canAdjust_none m2 key e (h.symm.trans hg)]
    simp [mapGet_mapSet_self]
  · by_cases hlt : e - last < ADJUST_COOLDOWN_EPISODES
    · rw [canAdjust_some_lt m key e last hg hlt,
        canAdjust_some_lt m2 key e last (h.symm.trans hg) hlt]
      exact ⟨rfl, h⟩
    · rw [canAdjust_some_ge m key e last hg hlt,
        canAdjust_some_ge m2 key e last (h.symm.trans hg) hlt]
      simp [mapGet_mapSet_self]

/-- One step of the gated rule evaluation. -/
lemma runAdjust_cons (m : AdjustMap) (k : String) (e : ℤ)
    (rest : List (String × ℤ)) :
    runAdjust m ((k, e) :: rest) =
      (if (canAdjust m k e).1 then [(k, e)] else [])
        ++ runAdjust (canAdjust m k e).2 rest := by
  simp only [runAdjust]
  rcases canAdjust m k e with ⟨ok, m2⟩
  cases ok <;> simp

/-- The cooldown gap demanded of the next firing, relative to the record the
map currently holds for the key. -/
def gapOk (last : Option ℤ) (e : ℤ) : Prop :=
  match last with
  | none => True
  | some l => ADJUST_COOLDOWN_EPISODES ≤ e - l

/-- Core cooldown invariant: over any call sequence, the episodes at which a
given rule key fires are chained at least one cooldown apart, and the first of
them respects the gap against the map record already present. -/
lemma runAdjust_fires_sep (key : String) :
    ∀ (calls : List (String × ℤ)) (m : AdjustMap),
    (∀ e, (((runAdjust m calls).filter (fun p => p.1 == key)).map
        (fun p => p.2)).head? = some e → gapOk (mapGet m key) e) ∧
    (((runAdjust m calls).filter (fun p => p.1 == key)).map
        (fun p => p.2)).Chain' (fun a b => a + ADJUST_COOLDOWN_EPISODES ≤ b) := by
  intro calls
  induction calls with
  | nil => intro m; constructor <;> simp [runAdjust]
  | cons c rest ih =>
    intro m
    obtain ⟨k0, e0⟩ := c
    by_cases hkey : k0 = key
    · subst hkey
      -- the call is for the tracked key
      have hfired : ∀ (hgap : gapOk (mapGet m k0) e0)
          (hc : canAdjust m k0 e0 = (true, mapSet m k0 e0)),
          (∀ e, (((runAdjust m ((k0, e0) :: rest)).filter (fun p => p.1 == k0)).map
              (fun p => p.2)).head? = some e → gapOk (mapGet m k0) e) ∧
          (((runAdjust m ((k0, e0) :: rest)).filter (fun p => p.1 == k0)).map
              (fun p => p.2)).Chain' (fun a b => a + ADJUST_COOLDOWN_EPISODES ≤ b) := by
        intro hgap hc
        obtain ⟨ihhead, ihchain⟩ := ih (mapSet m k0 e0)
        have hget2 : mapGet (mapSet m k0 e0) k0 = some e0 := mapGet_mapSet_self m k0 e0
        rw [runAdjust_cons, hc]
        simp only [List.filter_append, List.filter_cons, beq_self_eq_true, if_true,
          List.filter_nil, List.map_append, List.map_cons, List.map_nil,
          List.singleton_append, List.cons_append, List.nil_append]
        constructor
        · intro e he
          simp only [List.head?_cons, Option.some.injEq] at he
          exact he ▸ hgap
        · rw [List.chain'_cons']
          refine ⟨?_, ihchain⟩
          intro b hb
          have hgb := ihhead b hb
          rw [hget2] at hgb
          simp only [gapOk] at hgb
          omega
      rcases hg : mapGet m k0 with _ | last
      · have hres := hfired (by simp [hg, gapOk]) (canAdjust_none m k0 e0 hg)
        rwa [hg] at hres
      · by_cases hlt : e0 - last < ADJUST_COOLDOWN_EPISODES
        · -- the gate refuses: nothing is emitted and the map is unchanged
          rw [runAdjust_cons, canAdjust_some_lt m k0 e0 last hg hlt]
          have hres := ih m
          rw [hg] at hres
          simpa using hres
        · have hres := hfired (by simp only [hg, gapOk]; omega)
            (canAdjust_some_ge m k0 e0 last hg hlt)
          rwa [hg] at hres
    · -- a call for a different rule key: it is filtered out of the fire list
      -- and leaves the tracked key record untouched
      have hbeq : (k0 == key) = false := by simpa using hkey
      have hget : mapGet (canAdjust m k0 e0).2 key = mapGet m key :=
        canAdjust_mapGet_other m k0 key e0 hkey
      obtain ⟨ihhead, ihchain⟩ := ih (canAdjust m k0 e0).2
      rw [runAdjust_cons]
      constructor
      · intro e he
        refine hget ▸ ihhead e ?_
        rcases hok : (canAdjust m k0 e0).1 with _ | _ <;>
          simpa [hok, hbeq] using he
      · rcases hok : (canAdjust m k0 e0).1 with _ | _ <;>
          simpa [hok, hbeq] using ihchain

/-- The fires recorded for one key depend only on that key's own calls. -/
lemma runAdjust_filter_key (key : String) :
    ∀ (calls : List (String × ℤ)) (m m2 : AdjustMap),
    mapGet m key = mapGet m2 key →
    (runAdjust m calls).filter (fun p => p.1 == key)
      = (runAdjust m2 (calls.filter (fun p => p.1 == key))).filter
          (fun p => p.1 == key) := by
  intro calls
  induction calls with
  | nil => intro m m2 h; simp [runAdjust]
  | cons c rest ih =>
    intro m m2 h
    obtain ⟨k0, e0⟩ := c
    by_cases hkey : k0 = key
    · subst hkey
      obtain ⟨hdec, hrec⟩ := canAdjust_congr m m2 k0 e0 h
      rw [List.filter_cons]
      simp only [beq_self_eq_true, if_true]
      rw [runAdjust_cons, runAdjust_cons, hdec]
      cases hd : (canAdjust m2 k0 e0).1 <;>
        · rw [hd] at hdec
          simp only [List.filter_append, List.filter_cons, List.filter_nil,
            beq_self_eq_true, if_true, if_false, Bool.false_eq_true,
            List.nil_append, List.singleton_append, List.cons_append]
          first
            | exact ih _ _ hrec
            | exact congrArg _ (ih _ _ hrec)
    · have hbeq : (k0 == key) = false := by simpa using hkey
      rw [List.filter_cons]
      simp only [hbeq, Bool.false_eq_true, if_false]
      rw [runAdjust_cons]
      have hrec := canAdjust_mapGet_other m k0 key e0 hkey
      cases hok : (canAdjust m k0 e0).1 <;>
        · simp only [List.filter_append, List.filter_cons, List.filter_nil, hbeq,
            Bool.false_eq_true, if_false, if_true, List.nil_append]
          exact ih _ _ (hrec.trans h)

/-- C8: over every call sequence (adversarial telemetry included), the
episodes at which a given rule key fires are pairwise separated by at least
`ADJUST_COOLDOWN_EPISODES`; and the fires of a key are exactly those produced
by its own calls alone, so one rule firing never blocks a different rule. -/
theorem C8_cooldown_per_key (key : String) (calls : List (String × ℤ)) :
    (firesFor key calls).Pairwise
      (fun a b => a + ADJUST_COOLDOWN_EPISODES ≤ b) ∧
    firesFor key calls = firesFor key (calls.filter (fun p => p.1 == key)) := by
  constructor
  · have hch := (runAdjust_fires_sep key calls []).2
    haveI : IsTrans ℤ (fun a b : ℤ => a + ADJUST_COOLDOWN_EPISODES ≤ b) := by
      constructor
      intro a b c hab hbc
      simp only [ADJUST_COOLDOWN_EPISODES] at *
      omega
    unfold firesFor
    exact List.chain'_iff_pairwise.mp hch
  · unfold firesFor
    rw [runAdjust_filter_key key calls [] [] rfl]

/-- A successful cumulative-sum scan lands inside the scanned list. -/
lemma selectIdxAux_lt (r : ℚ) : ∀ (l : List ℚ) (acc : ℚ) (j0 j : ℕ),
    selectIdxAux r l acc j0 = some j → j < j0 + l.length := by
  intro l
  induction l with
  | nil => intro acc j0 j h; simp [selectIdxAux] at h
  | cons p rest ih =>
    intro acc j0 j h
    simp only [selectIdxAux] at h
    split at h
    · cases h
      simp only [List.length_cons]
      omega
    · have h2 := ih (acc + p) (j0 + 1) j h
      simp only [List.length_cons]
      omega

/-- The drawn index is zero (the fall-through default) or lies inside the
probability list. -/
lemma selectIndex_bound (r : ℚ) (l : List ℚ) :
    selectIndex r l = 0 ∨ selectIndex r l < l.length := by
  unfold selectIndex
  cases h : selectIdxAux r l 0 0 with
  | none => exact Or.inl rfl
  | some j =>
    right
    simpa using selectIdxAux_lt r l 0 0 j h

/-- C10: on an empty buffer `sample` returns the explicit empty result
(`null`), never raising; on a nonempty buffer of size `s` it succeeds for
every requested batch size `b` (in particular `b > s`), returning batch,
indices and weights all of length `min b s`, with every drawn index inside
`[0, s)` — for every `Math.pow` semantics and every random draw sequence. -/
theorem C10_sample_bounds (b : PRB) (batchSize : ℕ) (pow : ℚ → ℚ → ℚ)
    (rand : ℕ → ℚ) :
    (b.buffer = [] → (b.sample batchSize pow rand).1 = none) ∧
    (b.buffer ≠ [] →
      ∃ res, (b.sample batchSize pow rand).1 = some res ∧
        res.batch.length = min batchSize b.buffer.length ∧
        res.indices.length = min batchSize b.buffer.length ∧
        res.weights.length = min batchSize b.buffer.length ∧
        ∀ i ∈ res.indices, i < b.buffer.length) := by
  constructor
  · intro h
    simp [PRB.sample, h]
  · intro h
    have hlen0 : ¬ b.buffer.length = 0 := by simpa using h
    simp only [PRB.sample, hlen0, if_false]
    refine ⟨_, rfl, by simp, by simp, by simp, ?_⟩
    intro i hi
    simp only [List.mem_map, List.mem_range] at hi
    obtain ⟨i2, _, rfl⟩ := hi
    rcases selectIndex_bound (rand i2)
        (((b.priorities.take b.buffer.length).map
            (fun p => pow (if p = 0 then b.priorityEps else p) b.alpha)).map
          (fun p => p /
            (if ((b.priorities.take b.buffer.length).map
                (fun p => pow (if p = 0 then b.priorityEps else p) b.alpha)).foldl
                  (fun a p => a + p) 0 = 0 then 1
             else ((b.priorities.take b.buffer.length).map
                (fun p => pow (if p = 0 then b.priorityEps else p) b.alpha)).foldl
                  (fun a p => a + p) 0))) with h0 | hlt
    · rw [h0]
      omega
    · have hle : (((b.priorities.take b.buffer.length).map
            (fun p => pow (if p = 0 then b.priorityEps else p) b.alpha)).map
          (fun p => p /
            (if ((b.priorities.take b.buffer.length).map
                (fun p => pow (if p = 0 then b.priorityEps else p) b.alpha)).foldl
                  (fun a p => a + p) 0 = 0 then 1
             else ((b.priorities.take b.buffer.length).map
                (fun p => pow (if p = 0 then b.priorityEps else p) b.alpha)).foldl
                  (fun a p => a + p) 0))).length ≤ b.buffer.length := by
        simp [List.length_take]
      omega

/-- A capacity-1 buffer holding one pushed entry. -/
def oneEntryBuf : PRB := (PRB.init 1 (6/10) (4/10) 0 (1/1000)).pushAll [entryTagged 7]

/-- Witness for C10: the fresh empty buffer yields `none`; the one-entry
buffer sampled with `batchSize = 3 > 1` yields a full result of length 1. -/
theorem C10_sample_bounds_witness :
    ((PRB.init 1 (6/10) (4/10) 0 (1/1000)).sample 3 (fun a _ => a)
        (fun _ => 1/2)).1 = none ∧
    ∃ res, (oneEntryBuf.sample 3 (fun a _ => a) (fun _ => 1/2)).1 = some res ∧
      res.batch.length = min 3 oneEntryBuf.buffer.length ∧
      res.indices.length = min 3 oneEntryBuf.buffer.length ∧
      res.weights.length = min 3 oneEntryBuf.buffer.length ∧
      ∀ i ∈ res.indices, i < oneEntryBuf.buffer.length :=
  ⟨(C10_sample_bounds (PRB.init 1 (6/10) (4/10) 0 (1/1000)) 3 (fun a _ => a)
      (fun _ => 1/2)).1 rfl,
   (C10_sample_bounds oneEntryBuf 3 (fun a _ => a) (fun _ => 1/2)).2
      (by simp [oneEntryBuf, PRB.pushAll, PRB.push, PRB.init])⟩

/-- The directory state of `save/latest` after the first `i` primitive
operations of a (non-best) `save` call, starting from a filesystem whose
`latest` pointer holds payload `pOld`, writing new payload `pNew` into the
timestamp directory `ts1`. -/
def latestDuringSave (pOld pNew : ℕ) (i : ℕ) : DirState :=
  fsGet (applyOps [("save/latest", DirState.holds pOld)]
    ((saveOps "save" ".tmp1" "ts1" pNew false).take i)) "save/latest"

/-- C1 amended: during `save`, the old `latest` pointer stays complete and
readable at every intermediate point up to and including the temp-copy of the
pointer update (the first 8 primitive operations); but the pointer update then
deletes the old pointer before renaming the temp copy over it, so in the
window between that delete and the final rename the `latest` pointer is
absent.  At no intermediate point is the pointer ever partially written: it is
always either the old complete checkpoint, absent, or the new complete
checkpoint, and it is never mutated in place. -/
theorem C1_save_pointer_lifecycle (pOld pNew : ℕ) :
    (∀ i, i < 8 → latestDuringSave pOld pNew i = DirState.holds pOld) ∧
    (∀ i, latestDuringSave pOld pNew i = DirState.holds pOld ∨
      latestDuringSave pOld pNew i = DirState.absent ∨
      latestDuringSave pOld pNew i = DirState.holds pNew) ∧
    latestDuringSave pOld pNew 9 = DirState.holds pNew := by
  refine ⟨?_, ?_, ?_⟩
  · intro i hi
    interval_cases i <;>
      simp [latestDuringSave, saveOps, updatePointerOps, applyOps, applyOp,
        fsGet, fsSet]
  · intro i
    by_cases h9 : i ≤ 9
    · interval_cases i <;>
        simp [latestDuringSave, saveOps, updatePointerOps, applyOps, applyOp,
          fsGet, fsSet]
    · have hlen : (saveOps "save" ".tmp1" "ts1" pNew false).length ≤ i := by
        simp [saveOps, updatePointerOps]
        omega
      have htake : (saveOps "save" ".tmp1" "ts1" pNew false).take i
          = saveOps "save" ".tmp1" "ts1" pNew false := List.take_of_length_le hlen
      right; right
      unfold latestDuringSave
      rw [htake]
      simp [saveOps, updatePointerOps, applyOps, applyOp, fsGet, fsSet]
  · simp [latestDuringSave, saveOps, updatePointerOps, applyOps, applyOp,
      fsGet, fsSet]

/-- Witness for the amended C1 theorem at `pOld = 0`, `pNew = 1`, probing the
intact point `i = 3`, the window point `i = 8` and the final state. -/
theorem C1_save_pointer_lifecycle_witness :
    latestDuringSave 0 1 3 = DirState.holds 0 ∧
    (latestDuringSave 0 1 8 = DirState.holds 0 ∨
      latestDuringSave 0 1 8 = DirState.absent ∨
      latestDuringSave 0 1 8 = DirState.holds 1) ∧
    latestDuringSave 0 1 9 = DirState.holds 1 :=
  ⟨(C1_save_pointer_lifecycle 0 1).1 3 (by decide),
   (C1_save_pointer_lifecycle 0 1).2.1 8,
   (C1_save_pointer_lifecycle 0 1).2.2⟩

end SnakeML
